import Mathlib

/-!
Verification of the writer modules of the repository
(`src/robot/writer/filewriters.py` and `src/robot/writer/formatters.py`).

The development shallowly embeds the token / statement / section data
model, the tree transformation passes (separator removal, loop keyword
cleaning, column alignment), the emitter, and the row formatting engine
(row splitting and cell escaping), and proves theorems about the
properties stated in the specification.

Strings are modelled as `List Char`; Python string operations used by
the code (`ljust`, `rstrip`, slicing, `'\\'.join`, `re.sub`) are given
explicit definitions below.
-/

namespace RFW

/-- Characters treated as whitespace by the Python code in play
(`str.rstrip()` and the regex class used by
`_DataFileFormatter._whitespace`); restricted to the ASCII whitespace
characters, non-ASCII whitespace is not modelled. -/
def isPyWs (c : Char) : Bool :=
  c == ' ' || c == '\t' || c == '\n' || c == '\r' || c == '\x0b' || c == '\x0c'

/-- Python `str.rstrip()`: drop all trailing whitespace characters. -/
def rstrip (s : List Char) : List Char :=
  (s.reverse.dropWhile isPyWs).reverse

/-- Python `str.ljust(n)`: pad on the right with spaces to length `n`
(no change when the string is already at least `n` long). -/
def ljust (n : Nat) (s : List Char) : List Char :=
  s ++ List.replicate (n - s.length) ' '

/-- Python string repetition `n * s` (empty for `n = 0`). -/
def strRepeat (n : Nat) (s : List Char) : List Char :=
  (List.replicate n s).flatten

/-- The token type tags used by the writer code (`Token.EOL`,
`Token.SEPARATOR`, `Token.OLD_FOR_INDENT`, the four section header
types, `Token.NAME`, `Token.FOR`, `Token.END`, `Token.KEYWORD`,
`Token.CONTINUATION`); `ARGUMENT` stands for the remaining plain value
tags, which the writer never inspects. -/
inductive TokenType where
  | SETTING_HEADER
  | VARIABLE_HEADER
  | TESTCASE_HEADER
  | KEYWORD_HEADER
  | NAME
  | KEYWORD
  | ARGUMENT
  | FOR
  | END
  | CONTINUATION
  | SEPARATOR
  | EOL
  | OLD_FOR_INDENT
  deriving DecidableEq

/-- A token: a type tag and a text value. -/
structure Token where
  type : TokenType
  value : List Char
  deriving DecidableEq

/-- A statement: a type tag (the type of its defining token) and its
ordered token list. -/
structure Statement where
  type : TokenType
  tokens : List Token
  deriving DecidableEq

/-- Helper for `linesOf`: accumulates the current line (in reverse). -/
def linesGo (cur : List Token) : List Token → List (List Token)
  | [] => if cur.isEmpty then [] else [cur.reverse]
  | t :: rest =>
    if t.type = .EOL then (cur.reverse ++ [t]) :: linesGo [] rest
    else linesGo (t :: cur) rest

/-- Modelled from the spec: `Statement.lines` of the external parsing
model (`robot.parsing`, not under `src/`) — "the statement's tokens
grouped by physical line boundaries encountered in the source". Each
end-of-line token closes the line it terminates and stays in it; a final
group with no end-of-line token is still a line. -/
def linesOf (ts : List Token) : List (List Token) :=
  linesGo [] ts

/-- Accessor `Statement.lines`. -/
def Statement.lines (st : Statement) : List (List Token) :=
  linesOf st.tokens

/-! ## Cell escaping (`formatters.py`) -/

/-- The `cell.replace('\n', ' ')` step of
`_DataFileFormatter._escape_consecutive_whitespace`. -/
def nlToSp (c : Char) : Char :=
  if c = '\n' then ' ' else c

/-- The regex substitution of `_DataFileFormatter._escape_consecutive_whitespace`:
`re.sub('\s{2,}', lambda m: '\\'.join(m.group(0)), s)`.  Every maximal
run of at least two whitespace characters is replaced by the run with a
backslash joined between its characters. -/
def escapeRuns (l : List Char) : List Char :=
  match l with
  | [] => []
  | c :: rest =>
    if isPyWs c then
      if 2 ≤ (c :: rest.takeWhile isPyWs).length then
        List.intersperse '\\' (c :: rest.takeWhile isPyWs)
          ++ escapeRuns (rest.dropWhile isPyWs)
      else
        c :: escapeRuns rest
    else
      c :: escapeRuns rest
termination_by l.length
decreasing_by
  · have h := (List.dropWhile_sublist (l := rest) isPyWs).length_le
    simp only [List.length_cons]
    omega
  · simp
  · simp

/-- Embedding of `_DataFileFormatter._escape_consecutive_whitespace` applied to one
cell: first line breaks become spaces, then runs of two or more
whitespace characters are escaped. -/
def escapeConsecutiveWhitespace (cell : List Char) : List Char :=
  escapeRuns (cell.map nlToSp)

/-- Inserting a backslash between every two adjacent whitespace
characters.  This is the declarative reading of the escaping rule: each
whitespace character after the first one of a run becomes preceded by a
backslash. -/
def insertBs : List Char → List Char
  | c1 :: c2 :: rest =>
    if isPyWs c1 && isPyWs c2 then c1 :: '\\' :: insertBs (c2 :: rest)
    else c1 :: insertBs (c2 :: rest)
  | l => l

/-- Modelled from the spec: the inverse unescaping rule (applied by the
external parser, not under `src/`), described as "removing the inserted
escape markers": all backslashes are removed. -/
def undoEscape (l : List Char) : List Char :=
  l.filter (· != '\\')

/-- Embedding of `TxtFormatter._escape_cells` (a generator with a running `escape`
flag): a non-empty cell sets the flag; an empty cell is replaced by a
single backslash when the flag is already set. -/
def escapeCellsGo (escape : Bool) : List (List Char) → List (List Char)
  | [] => []
  | cell :: rest =>
    if cell.isEmpty then
      (if escape then ['\\'] else cell) :: escapeCellsGo escape rest
    else
      cell :: escapeCellsGo true rest

/-- Embedding of `TxtFormatter._escape_cells` with its initial `escape = False`. -/
def txtEscapeCells (row : List (List Char)) : List (List Char) :=
  escapeCellsGo false row

/-! ## Separator removal (`SeparatorRemover`, `filewriters.py`) -/

/-- Tokens removed by `SeparatorRemover.visit_Statement`:
`Token.EOL`, `Token.SEPARATOR`, `Token.OLD_FOR_INDENT`. -/
def tokenIsLayout (t : Token) : Bool :=
  t.type = .EOL ∨ t.type = .SEPARATOR ∨ t.type = .OLD_FOR_INDENT

/-- Helper for `addWhitespaceToHeaderValues`, the loop of
`SeparatorRemover._add_whitespace_to_header_values`.  The Python loop
keeps a `prev` reference to the last seen testcase-header token and
mutates it in place when a separator follows; here the processed prefix
is kept as `acc ++ prev ++ pending`, where `prev` is the still-active
header token (its value may still grow) and `pending` are the separator
tokens already seen after it. -/
def addWsGo (acc : List Token) (prev : Option Token) (pending : List Token) :
    List Token → List Token
  | [] => acc ++ prev.toList ++ pending
  | t :: rest =>
    if t.type = .SEPARATOR then
      match prev with
      | some p =>
        addWsGo acc
          (some { p with value := p.value ++ t.value.take (t.value.length - 4) })
          (pending ++ [t]) rest
      | none => addWsGo (acc ++ pending ++ [t]) none [] rest
    else if t.type = .TESTCASE_HEADER then
      addWsGo (acc ++ prev.toList ++ pending) (some t) [] rest
    else
      addWsGo (acc ++ prev.toList ++ pending ++ [t]) none [] rest

/-- Embedding of `SeparatorRemover._add_whitespace_to_header_values`: each separator
token directly following a testcase-header token has its value, minus
the last four characters (Python `token.value[:-4]`), appended to that
header token's value. -/
def addWhitespaceToHeaderValues (ts : List Token) : List Token :=
  addWsGo [] none [] ts

/-- Embedding of `SeparatorRemover.visit_Statement`: for a statement of testcase
header type, first merge separator whitespace into the header values,
then drop every end-of-line, separator and legacy-indent token. -/
def separatorRemover (st : Statement) : Statement :=
  let toks :=
    if st.type = .TESTCASE_HEADER then addWhitespaceToHeaderValues st.tokens
    else st.tokens
  { st with tokens := toks.filter (fun t => !(tokenIsLayout t)) }

/-! ## Loop keyword cleaning (`ForLoopCleaner`, `filewriters.py`) -/

/-- A loop construct of the parsing model: a header statement, body
statements, and a terminator statement (nested one level inside a
test/keyword body). -/
structure ForLoop where
  header : Statement
  body : List Statement
  endStmt : Statement
  deriving DecidableEq

/-- Assignment to `statement[0].value`: overwrite the value of the
first token.  (Python raises `IndexError` on an empty token list; the
theorems below only use it on non-empty ones.) -/
def setFirstTokenValue (v : List Char) : List Token → List Token
  | [] => []
  | t :: ts => { t with value := v } :: ts

/-- Embedding of `ForLoopCleaner.visit_ForLoop`: `forloop.header[0].value = 'FOR'`
and `forloop.end[0].value = 'END'`. -/
def forLoopCleaner (f : ForLoop) : ForLoop :=
  { f with
    header := { f.header with tokens := setFirstTokenValue "FOR".toList f.header.tokens }
    endStmt := { f.endStmt with tokens := setFirstTokenValue "END".toList f.endStmt.tokens } }

/-! ## Tree-level column alignment (`ColumnAligner`, `Aligner`,
`filewriters.py`) -/

/-- The inner loop of `ColumnAligner.visit_Statement` over
`zip(line, widths)`: each zipped token gets `(exp_pos - line_pos)`
spaces prepended (Python repetition of a negative count is empty, which
truncated subtraction matches), and `line_pos` advances by the length of
the new value.  Tokens beyond the zipped length stay unchanged. -/
def columnAlignGo (linePos expPos : Nat) : List Token → List Nat → List Token
  | t :: ts, w :: ws =>
    let expPos2 := expPos + w
    let newVal := List.replicate (expPos2 - linePos) ' ' ++ t.value
    { t with value := newVal } :: columnAlignGo (linePos + newVal.length) expPos2 ts ws
  | ts, _ => ts

/-- Embedding of `ColumnAligner.visit_Statement`: statements of testcase-header or
name type are skipped; otherwise every line has its tokens padded to the
cumulative column widths. -/
def columnAlignerVisitStatement (widths : List Nat) (st : Statement) : Statement :=
  if st.type = .TESTCASE_HEADER ∨ st.type = .NAME then st
  else { st with tokens := ((st.lines.map (fun line => columnAlignGo 0 0 line widths)).flatten) }

/-- Constant `Aligner._setting_and_variable_name_width`. -/
def settingAndVariableNameWidth : Nat := 14

/-- Embedding of `line[0].value = line[0].value.ljust(14)`: left-justify the first
token of a line.  (Lines produced by `linesOf` are never empty; the
empty case is vacuous.) -/
def ljustFirstToken (line : List Token) : List Token :=
  match line with
  | [] => []
  | t :: ts => { t with value := ljust settingAndVariableNameWidth t.value } :: ts

/-- Embedding of `Aligner.visit_Statement` (reached for statements of settings and
variables sections): the first token of every line is left-justified to
the settings/variables name width. -/
def alignerVisitStatement (st : Statement) : Statement :=
  { st with tokens := (st.lines.map ljustFirstToken).flatten }

/-! ## The document tree and the emitter (`Writer`, `filewriters.py`)

The tree node classes live in the external parsing model
(`robot.parsing`, not under `src/`); they are modelled from the spec:
a document is a sequence of sections; a section is a header statement
plus child statements and test/keyword nodes; a test or keyword is a
name statement plus a body of statements and loop constructs (loops
nest one level inside a test/keyword body). -/

/-- An item of a test/keyword body. -/
inductive BodyItem where
  | stmt (s : Statement)
  | forLoop (f : ForLoop)
  deriving DecidableEq

/-- A test or keyword: a name statement and a body. -/
structure TestOrKeyword where
  name : Statement
  body : List BodyItem
  deriving DecidableEq

/-- An item of a section body. -/
inductive SectionItem where
  | stmt (s : Statement)
  | tok (t : TestOrKeyword)
  deriving DecidableEq

/-- A section: its type tag, header statement and body items. -/
structure Section where
  type : TokenType
  header : Statement
  items : List SectionItem
  deriving DecidableEq

/-- A document: a sequence of sections. -/
structure Document where
  sections : List Section
  deriving DecidableEq

/-- The configuration read by `Writer.__init__`: the dialect flag
`configuration.pipe_separated` and `configuration.txt_separating_spaces`. -/
structure WConfig where
  pipes : Bool
  txtSeparatingSpaces : Nat
  deriving DecidableEq

/-- Field `self.separator` of the writer: `' ' * txt_separating_spaces` in the space
dialect, `' | '` in the pipe dialect. -/
def WConfig.separator (cfg : WConfig) : List Char :=
  if cfg.pipes then " | ".toList else List.replicate cfg.txtSeparatingSpaces ' '

/-- Field `self.indent_marker` of the writer: the separator in the space dialect,
`'   | '` in the pipe dialect. -/
def WConfig.indentMarker (cfg : WConfig) : List Char :=
  if cfg.pipes then "   | ".toList else cfg.separator

/-- Modelled from the spec: the default of the
`txt_separating_spaces` configuration value (set by the writing context
outside `src/`); the spec gives 4 as the default indent width of the
space dialect, and the code uses the same value for both the separator
and the indent marker. -/
def defaultTxtSeparatingSpaces : Nat := 4

/-- The space dialect configuration with separating space count `n`. -/
def spaceConfig (n : Nat) : WConfig := ⟨false, n⟩

/-- The pipe dialect configuration (`txt_separating_spaces` is unused
in this dialect but still present in the configuration). -/
def pipeConfig (n : Nat) : WConfig := ⟨true, n⟩

/-- The mutable state of `Writer`: the indent counter and the
`_section_seen`, `_test_or_kw_seen`, `_test_case_section_headers`
flags. -/
structure WState where
  indent : Nat
  sectionSeen : Bool
  testOrKwSeen : Bool
  testCaseSectionHeaders : Bool
  deriving DecidableEq

/-- The initial `Writer` state. -/
def initWState : WState := ⟨0, false, false, false⟩

/-- Embedding of `Writer._write_statement` at indent level `ind`: each line of the
statement becomes one output line, the token values joined with the
separator after the repeated indent marker; pipe rows are wrapped in
`'| '` and `' |'`, space rows are right-stripped.  (Each written line is
one element of the returned list; the emitter writes each with a
trailing newline.) -/
def writeStmt (cfg : WConfig) (ind : Nat) (st : Statement) : List (List Char) :=
  st.lines.map (fun line =>
    let row := strRepeat ind cfg.indentMarker
      ++ List.intercalate cfg.separator (line.map Token.value)
    if cfg.pipes then "| ".toList ++ row ++ " |".toList else rstrip row)

/-- Embedding of `Writer.visit_ForLoop`: the header at the current indent, the body
statements one level deeper, the terminator back at the current
indent. -/
def visitForLoopW (cfg : WConfig) (st : WState) (f : ForLoop) : List (List Char) × WState :=
  let out1 := writeStmt cfg st.indent f.header
  let stIn : WState := { st with indent := st.indent + 1 }
  let out2 := (f.body.map (writeStmt cfg stIn.indent)).flatten
  let stOut : WState := { stIn with indent := stIn.indent - 1 }
  (out1 ++ out2 ++ writeStmt cfg stOut.indent f.endStmt, stOut)

/-- Visiting one body item of a test/keyword. -/
def visitBodyItemW (cfg : WConfig) (st : WState) : BodyItem → List (List Char) × WState
  | .stmt s => (writeStmt cfg st.indent s, st)
  | .forLoop f => visitForLoopW cfg st f

/-- Folding the writer over a list of body items. -/
def visitBodyListW (cfg : WConfig) (st : WState) : List BodyItem → List (List Char) × WState
  | [] => ([], st)
  | it :: rest =>
    let (o, st1) := visitBodyItemW cfg st it
    let (os, st2) := visitBodyListW cfg st1 rest
    (o ++ os, st2)

/-- Embedding of `Writer.visit_TestOrKeyword`: a blank line first when a test or
keyword was already seen in this section, then the name statement, then
the body one indent level deeper; finally the seen flag is set. -/
def visitTestOrKeywordW (cfg : WConfig) (st : WState) (t : TestOrKeyword) :
    List (List Char) × WState :=
  let pre : List (List Char) := if st.testOrKwSeen then [[]] else []
  let nameOut := writeStmt cfg st.indent t.name
  let stIn : WState := { st with indent := st.indent + 1 }
  let (bodyOut, stB) := visitBodyListW cfg stIn t.body
  let stOut : WState := { stB with indent := stB.indent - 1, testOrKwSeen := true }
  (pre ++ nameOut ++ bodyOut, stOut)

/-- Visiting one section item. -/
def visitSectionItemW (cfg : WConfig) (st : WState) : SectionItem → List (List Char) × WState
  | .stmt s => (writeStmt cfg st.indent s, st)
  | .tok t => visitTestOrKeywordW cfg st t

/-- Folding the writer over the section items. -/
def visitItemListW (cfg : WConfig) (st : WState) : List SectionItem → List (List Char) × WState
  | [] => ([], st)
  | it :: rest =>
    let (o, st1) := visitSectionItemW cfg st it
    let (os, st2) := visitItemListW cfg st1 rest
    (o ++ os, st2)

/-- Embedding of `Writer.visit_Section`: a blank line first when a section was
already seen, the `_test_case_section_headers` flag update, the header
statement, the items, then the flag resets. -/
def visitSectionW (cfg : WConfig) (st : WState) (sec : Section) : List (List Char) × WState :=
  let pre : List (List Char) := if st.sectionSeen then [[]] else []
  let st1 : WState :=
    if sec.type = .TESTCASE_HEADER then
      { st with testCaseSectionHeaders := decide (1 < sec.header.tokens.length) }
    else st
  let hdrOut := writeStmt cfg st1.indent sec.header
  let (bodyOut, st2) := visitItemListW cfg st1 sec.items
  (pre ++ hdrOut ++ bodyOut,
    { st2 with sectionSeen := true, testOrKwSeen := false, testCaseSectionHeaders := false })

/-- Folding the writer over the sections. -/
def visitSectionListW (cfg : WConfig) (st : WState) : List Section → List (List Char) × WState
  | [] => ([], st)
  | sec :: rest =>
    let (o, st1) := visitSectionW cfg st sec
    let (os, st2) := visitSectionListW cfg st1 rest
    (o ++ os, st2)

/-- Running `Writer` on a whole document from the initial state: the
list of emitted lines. -/
def writeDocumentW (cfg : WConfig) (doc : Document) : List (List Char) :=
  (visitSectionListW cfg initWState doc.sections).1

/-! Pure (state-free) description of the emitter's output, used as the
specification side of the refinement theorems. -/

/-- Output of one body item at indent `ind`: a loop prints its header
at `ind`, its body at `ind + 1`, its terminator at `ind`. -/
def bodyItemOut (cfg : WConfig) (ind : Nat) : BodyItem → List (List Char)
  | .stmt s => writeStmt cfg ind s
  | .forLoop f =>
    writeStmt cfg ind f.header ++ (f.body.map (writeStmt cfg (ind + 1))).flatten
      ++ writeStmt cfg ind f.endStmt

/-- Output of one test/keyword at indent `ind`: the name at `ind`, the
body at `ind + 1`. -/
def tokOut (cfg : WConfig) (ind : Nat) (t : TestOrKeyword) : List (List Char) :=
  writeStmt cfg ind t.name ++ (t.body.map (bodyItemOut cfg (ind + 1))).flatten

/-- Output of the items of a section at indent `ind`: one blank line
before every test/keyword except the first one of the section
(`seen` records whether a test/keyword came before). -/
def itemsOut (cfg : WConfig) (ind : Nat) (seen : Bool) : List SectionItem → List (List Char)
  | [] => []
  | .stmt s :: rest => writeStmt cfg ind s ++ itemsOut cfg ind seen rest
  | .tok t :: rest =>
    (if seen then [[]] else []) ++ tokOut cfg ind t ++ itemsOut cfg ind true rest

/-- Output of one section: the header, then the items, with no blank
line of its own at either end. -/
def sectionOut (cfg : WConfig) (sec : Section) : List (List Char) :=
  writeStmt cfg 0 sec.header ++ itemsOut cfg 0 false sec.items

/-- The document output specification: the section outputs joined by
exactly one blank line between adjacent sections, no blank line before
the first or after the last one. -/
def documentOut (cfg : WConfig) (doc : Document) : List (List Char) :=
  List.intercalate [[]] (doc.sections.map (sectionOut cfg))

/-! ## The second pipeline's pipe row writer
(`PipeSeparatedTxtWriter._write_row`, `filewriters.py`) -/

/-- Embedding of `PipeSeparatedTxtWriter._write_row`: the cell values joined with
`' | '`; a non-empty row is wrapped in `'| '` and `' |'`; an empty one
is written as an empty line. -/
def pipeWriteRow (row : List Token) : List Char :=
  let r := List.intercalate " | ".toList (row.map Token.value)
  if r.isEmpty then r else "| ".toList ++ r ++ " |".toList

/-! ## The row splitting engine (`TxtFormatter._split_to_rows`,
`formatters.py`) -/

/-- Embedding of `_DataFileFormatter._is_indented_table`. -/
def isIndentedTable (sec : Section) : Prop :=
  sec.type = .TESTCASE_HEADER ∨ sec.type = .KEYWORD_HEADER

instance (sec : Section) : Decidable (isIndentedTable sec) := by
  unfold isIndentedTable; infer_instance

/-- Embedding of `_DataFileFormatter._should_align_columns`: an indented
(testcase/keyword) section whose header statement has more than two
tokens. -/
def shouldAlignColumns (sec : Section) : Prop :=
  isIndentedTable sec ∧ 2 < sec.header.tokens.length

instance (sec : Section) : Decidable (shouldAlignColumns sec) := by
  unfold shouldAlignColumns; infer_instance

/-- Constant `TxtFormatter._test_or_keyword_name_width`. -/
def testOrKeywordNameWidth : Nat := 18

/-- Embedding of `TxtFormatter._want_names_on_first_content_row`. -/
def wantNamesOnFirstContentRow (sec : Section) (name : List Char) : Prop :=
  shouldAlignColumns sec ∧ name.length ≤ testOrKeywordNameWidth

instance (sec : Section) (name : List Char) :
    Decidable (wantNamesOnFirstContentRow sec name) := by
  unfold wantNamesOnFirstContentRow; infer_instance

/-- Embedding of `TxtFormatter._empty_token()`: `Token(Token.SEPARATOR, '')`. -/
def emptyToken : Token := ⟨.SEPARATOR, []⟩

/-- The loop state of `TxtFormatter._split_to_rows`: the rows already
yielded, the tokens of the current row, and the `for_seen`,
`in_for_loop` and `prev_t` variables. -/
structure SplitState where
  rows : List (List Token)
  tokensOnRow : List Token
  forSeen : Bool
  inForLoop : Bool
  prevT : Option Token
  deriving DecidableEq

/-- The initial state of `_split_to_rows`. -/
def initSplitState : SplitState :=
  ⟨[], [], false, false, none⟩

/-- Yielding the current row (`yield tokens_on_row` guarded by
`if tokens_on_row:`, with a leading empty token inside a loop body). -/
def emitRow (s : SplitState) : List (List Token) :=
  if s.tokensOnRow.isEmpty then s.rows
  else s.rows ++ [if s.inForLoop then emptyToken :: s.tokensOnRow else s.tokensOnRow]

/-- The guard of the end-of-line branch of `_split_to_rows`:
`prev_t and prev_t.type == Token.NAME and
self._want_names_on_first_content_row(section, prev_t.value)`. -/
def namePending (sec : Section) : Option Token → Prop
  | some p => p.type = .NAME ∧ wantNamesOnFirstContentRow sec p.value
  | none => False

instance (sec : Section) (o : Option Token) : Decidable (namePending sec o) := by
  cases o <;> (unfold namePending; infer_instance)

/-- One iteration of the `_split_to_rows` loop body on token `t`. -/
def splitStep (sec : Section) (s : SplitState) (t : Token) : SplitState :=
  let s := if t.type = .END then { s with forSeen := false, inForLoop := false } else s
  let s := if s.forSeen ∧ t.type = .KEYWORD then { s with inForLoop := true } else s
  if t.type = .SEPARATOR then s
  else if t.type = .EOL then
    if ¬ namePending sec s.prevT then
      { s with rows := emitRow s, tokensOnRow := [] }
    else s
  else
    let s :=
      if t.type = .CONTINUATION then { s with rows := emitRow s, tokensOnRow := [t] }
      else { s with tokensOnRow := s.tokensOnRow ++ [t] }
    let s := if ¬ s.forSeen then { s with forSeen := decide (t.type = .FOR) } else s
    { s with prevT := some t }

/-- Embedding of `TxtFormatter._split_to_rows` over a token list: the loop followed
by the final `if tokens_on_row: yield`. -/
def splitToRows (sec : Section) (tokens : List Token) : List (List Token) :=
  emitRow (tokens.foldl (splitStep sec) initSplitState)

/-! ## General lemmas about the string helpers -/

theorem rstrip_append (a b : List Char) (h : rstrip b ≠ []) :
    rstrip (a ++ b) = a ++ rstrip b := by
  unfold rstrip at *
  rw [List.reverse_append, List.dropWhile_append]
  have hb : ¬ (List.dropWhile isPyWs b.reverse).isEmpty = true := by
    intro hc
    rw [List.isEmpty_iff] at hc
    exact h (by rw [hc]; rfl)
  rw [if_neg hb, List.reverse_append, List.reverse_reverse]

theorem intercalate_cons {α : Type} (sep a : List α) (l : List (List α)) (h : l ≠ []) :
    List.intercalate sep (a :: l) = a ++ sep ++ List.intercalate sep l := by
  obtain ⟨b, t, rfl⟩ := List.exists_cons_of_ne_nil h
  simp [List.intercalate, List.intersperse, List.append_assoc]

theorem intercalate_eq_head_append {α : Type} (sep x : List α) (xs : List (List α)) :
    List.intercalate sep (x :: xs) = x ++ (xs.map (fun y => sep ++ y)).flatten := by
  induction xs generalizing x with
  | nil => simp [List.intercalate, List.intersperse]
  | cons y ys ih =>
    rw [intercalate_cons sep x (y :: ys) (by simp), ih y]
    simp [List.append_assoc]

theorem linesGo_flatten (ts : List Token) :
    ∀ cur, (linesGo cur ts).flatten = cur.reverse ++ ts := by
  induction ts with
  | nil =>
    intro cur
    by_cases h : cur.isEmpty
    · rw [List.isEmpty_iff] at h
      simp [linesGo, h]
    · simp [linesGo, h]
  | cons t rest ih =>
    intro cur
    by_cases h : t.type = .EOL
    · simp [linesGo, h, ih []]
    · simp [linesGo, h, ih (t :: cur)]

theorem linesOf_flatten (ts : List Token) : (linesOf ts).flatten = ts := by
  simpa using linesGo_flatten ts []

theorem linesGo_no_eol (ts : List Token) (h : ∀ t ∈ ts, t.type ≠ .EOL) :
    ∀ cur, linesGo cur ts =
      if (cur.reverse ++ ts).isEmpty then [] else [cur.reverse ++ ts] := by
  induction ts with
  | nil =>
    intro cur
    by_cases hc : cur.isEmpty
    · rw [List.isEmpty_iff] at hc
      simp [linesGo, hc]
    · have hc' : cur ≠ [] := by
        intro hn; exact hc (by rw [hn]; rfl)
      simp [linesGo, hc, hc']
  | cons t rest ih =>
    intro cur
    have ht : t.type ≠ .EOL := h t (List.mem_cons_self t rest)
    have ih' := ih (fun x hx => h x (List.mem_cons_of_mem t hx)) (t :: cur)
    simp only [linesGo, if_neg ht]
    rw [ih']
    simp

theorem linesOf_no_eol (ts : List Token) (h : ∀ t ∈ ts, t.type ≠ .EOL)
    (hne : ts ≠ []) : linesOf ts = [ts] := by
  unfold linesOf
  rw [linesGo_no_eol ts h []]
  simp [hne]

/-! ## C2: `_escape_cells` -/

theorem escapeCellsGo_length (esc : Bool) (cells : List (List Char)) :
    (escapeCellsGo esc cells).length = cells.length := by
  induction cells generalizing esc with
  | nil => rfl
  | cons c rest ih => by_cases h : c.isEmpty <;> simp [escapeCellsGo, h, ih]

theorem escapeCellsGo_getElem (esc : Bool) (cells : List (List Char)) (i : Nat) :
    (escapeCellsGo esc cells)[i]? =
      (cells[i]?).map (fun c =>
        if c = [] ∧ (esc = true ∨ ∃ c' ∈ cells.take i, c' ≠ []) then ['\\'] else c) := by
  induction cells generalizing esc i with
  | nil => simp [escapeCellsGo]
  | cons cell rest ih =>
    by_cases hc : cell = []
    · subst hc
      cases i with
      | zero => cases esc <;> simp [escapeCellsGo]
      | succ i =>
        simp only [escapeCellsGo, List.isEmpty_nil, if_pos, List.getElem?_cons_succ,
          List.take_succ_cons]
        rw [ih esc i]
        apply Option.map_congr
        intro a _
        refine if_congr ?_ rfl rfl
        simp [List.exists_mem_cons_iff]
    · cases i with
      | zero =>
        have hc' : ¬ cell.isEmpty = true := by
          intro hx; exact hc (List.isEmpty_iff.mp hx)
        simp [escapeCellsGo, hc', hc]
      | succ i =>
        have hc' : ¬ cell.isEmpty = true := by
          intro hx; exact hc (List.isEmpty_iff.mp hx)
        simp only [escapeCellsGo, if_neg hc', List.getElem?_cons_succ,
          List.take_succ_cons]
        rw [ih true i]
        apply Option.map_congr
        intro a _
        refine if_congr ?_ rfl rfl
        simp [List.exists_mem_cons_iff, hc]

/-- C2 (amended): an empty cell becomes a single backslash exactly when
some earlier cell of the row is non-empty; cells before the first
non-empty one stay empty, and trailing empty cells are kept (not
omitted). -/
theorem c2_theorem (cells : List (List Char)) :
    (txtEscapeCells cells).length = cells.length
    ∧ ∀ i : Nat, (txtEscapeCells cells)[i]? =
        (cells[i]?).map (fun c =>
          if c = [] ∧ ∃ c' ∈ cells.take i, c' ≠ [] then ['\\'] else c) := by
  constructor
  · exact escapeCellsGo_length false cells
  · intro i
    rw [txtEscapeCells, escapeCellsGo_getElem false cells i]
    apply Option.map_congr
    intro a _
    refine if_congr ?_ rfl rfl
    simp

/-- C2 counterexample: in the row `["", "a", ""]` the first cell is
empty and followed later by a non-empty cell, yet it is *not* rendered
as a backslash, while the trailing empty cell is *not* omitted but
rendered as a backslash — the opposite of the claimed behaviour
`["\\", "a"]`. -/
theorem c2_counterexample :
    txtEscapeCells [[], ['a'], []] = [[], ['a'], ['\\']]
    ∧ [([] : List Char), ['a'], ['\\']] ≠ [['\\'], ['a']] := by
  constructor
  · rfl
  · decide

/-! ## C3 and C4: whitespace escaping -/

theorem insertBs_cons_of_not_ws (c : Char) (rest : List Char) (h : ¬ isPyWs c = true) :
    insertBs (c :: rest) = c :: insertBs rest := by
  cases rest with
  | nil => rfl
  | cons d rest' => simp [insertBs, h]

theorem insertBs_run (c : Char) (rest : List Char) (h : isPyWs c = true) :
    insertBs (c :: rest) =
      List.intersperse '\\' (c :: rest.takeWhile isPyWs)
        ++ insertBs (rest.dropWhile isPyWs) := by
  induction rest generalizing c with
  | nil => simp [insertBs, List.intersperse]
  | cons d rest' ih =>
    by_cases hd : isPyWs d = true
    · rw [List.takeWhile_cons_of_pos hd, List.dropWhile_cons_of_pos hd]
      have : insertBs (c :: d :: rest') = c :: '\\' :: insertBs (d :: rest') := by
        simp [insertBs, h, hd]
      rw [this, ih d hd]
      simp [List.intersperse]
    · rw [List.takeWhile_cons_of_neg hd, List.dropWhile_cons_of_neg hd]
      have : insertBs (c :: d :: rest') = c :: insertBs (d :: rest') := by
        simp [insertBs, h, hd]
      rw [this]
      simp [List.intersperse]

theorem escapeRuns_eq_insertBs (l : List Char) : escapeRuns l = insertBs l := by
  induction l using escapeRuns.induct with
  | case1 => rw [escapeRuns]; rfl
  | case2 c rest hws hlen ih =>
    rw [escapeRuns]
    simp only [if_pos hws, if_pos hlen]
    rw [ih, insertBs_run c rest hws]
  | case3 c rest hws hlen ih =>
    rw [escapeRuns]
    simp only [if_pos hws, if_neg hlen]
    have htw : rest.takeWhile isPyWs = [] := by
      simp only [List.length_cons] at hlen
      have : (rest.takeWhile isPyWs).length = 0 := by omega
      exact List.eq_nil_of_length_eq_zero this
    have hdw : rest.dropWhile isPyWs = rest := by
      have := List.takeWhile_append_dropWhile (p := isPyWs) (l := rest)
      rw [htw] at this
      simpa using this
    rw [ih, insertBs_run c rest hws, htw, hdw]
    simp [List.intersperse]
  | case4 c rest hws ih =>
    rw [escapeRuns]
    simp only [if_neg hws]
    rw [ih, insertBs_cons_of_not_ws c rest hws]

/-- C3 (amended): the escaping rewrites every line break to a space and
then inserts one backslash between every two adjacent whitespace
characters (each whitespace character of a run *except the first* gets
a preceding backslash); in particular `"a   b"` escapes to
`"a \ \ b"`, not `"a \ \ \ b"`. -/
theorem c3_theorem :
    (∀ cell : List Char,
      escapeConsecutiveWhitespace cell = insertBs (cell.map nlToSp))
    ∧ escapeConsecutiveWhitespace "a   b".toList = "a \\ \\ b".toList := by
  constructor
  · intro cell
    rw [escapeConsecutiveWhitespace, escapeRuns_eq_insertBs]
  · rw [escapeConsecutiveWhitespace, escapeRuns_eq_insertBs]
    decide

/-- C3 counterexample: escaping `"a   b"` (three internal spaces)
yields `"a \ \ b"`, which differs from the claimed `"a \ \ \ b"`. -/
theorem c3_counterexample :
    escapeConsecutiveWhitespace "a   b".toList = "a \\ \\ b".toList
    ∧ "a \\ \\ b".toList ≠ "a \\ \\ \\ b".toList := by
  constructor
  · rw [escapeConsecutiveWhitespace, escapeRuns_eq_insertBs]
    decide
  · decide

theorem filter_insertBs (l : List Char) (h : ∀ c ∈ l, c ≠ '\\') :
    (insertBs l).filter (· != '\\') = l := by
  induction l with
  | nil => rfl
  | cons c rest ih =>
    have hc : (c != '\\') = true := by
      have := h c (List.mem_cons_self c rest)
      simpa using this
    have ih' := ih (fun x hx => h x (List.mem_cons_of_mem c hx))
    cases rest with
    | nil => simp [insertBs, List.filter, hc]
    | cons d rest' =>
      by_cases hws : isPyWs c = true ∧ isPyWs d = true
      · have : insertBs (c :: d :: rest') = c :: '\\' :: insertBs (d :: rest') := by
          simp [insertBs, hws.1, hws.2]
        rw [this]
        simp only [List.filter_cons, hc, if_pos]
        simp [ih']
      · have : insertBs (c :: d :: rest') = c :: insertBs (d :: rest') := by
        -- the Boolean guard `isPyWs c && isPyWs d` is false
          rcases Decidable.not_and_iff_or_not.mp hws with h1 | h1 <;> simp [insertBs, h1]
        rw [this]
        simp only [List.filter_cons, hc, if_pos]
        simp [ih']

/-- C4: a cell without backslashes and line breaks (in particular one
whose only special content is internal runs of two or more spaces)
escapes and then unescapes back to itself. -/
theorem c4_theorem (cell : List Char) (h : ∀ c ∈ cell, c ≠ '\\' ∧ c ≠ '\n') :
    undoEscape (escapeConsecutiveWhitespace cell) = cell := by
  have hmap : cell.map nlToSp = cell := by
    have hcg : ∀ c ∈ cell, nlToSp c = id c := by
      intro c hc
      simp [nlToSp, (h c hc).2]
    rw [List.map_congr_left hcg, List.map_id]
  rw [undoEscape, escapeConsecutiveWhitespace, escapeRuns_eq_insertBs, hmap]
  exact filter_insertBs cell (fun c hc => (h c hc).1)

/-- C4 witness: the round trip on the concrete cell `"a   b"`. -/
theorem c4_witness :
    undoEscape (escapeConsecutiveWhitespace "a   b".toList) = "a   b".toList :=
  c4_theorem "a   b".toList (by decide)

/-! ## C5: loop keyword canonicalization -/

/-- C5: whatever the original spelling of the loop keywords, after
`ForLoopCleaner` the first header token reads `FOR` and the first
terminator token reads `END`. -/
theorem c5_theorem (f : ForLoop) (hh : f.header.tokens ≠ []) (he : f.endStmt.tokens ≠ []) :
    ((forLoopCleaner f).header.tokens.map Token.value).head? = some "FOR".toList
    ∧ ((forLoopCleaner f).endStmt.tokens.map Token.value).head? = some "END".toList := by
  obtain ⟨t, ts, hts⟩ := List.exists_cons_of_ne_nil hh
  obtain ⟨u, us, hus⟩ := List.exists_cons_of_ne_nil he
  simp [forLoopCleaner, hts, hus, setFirstTokenValue]

/-- A loop construct with legacy keyword spellings, for the C5
witness. -/
def exForLoopC5 : ForLoop :=
  ⟨⟨.FOR, [⟨.FOR, ": for".toList⟩, ⟨.ARGUMENT, "x".toList⟩]⟩,
   [],
   ⟨.END, [⟨.END, "End".toList⟩]⟩⟩

/-- C5 witness: a loop spelled `": for"` / `"End"` is canonicalized. -/
theorem c5_witness :
    ((forLoopCleaner exForLoopC5).header.tokens.map Token.value).head? = some "FOR".toList
    ∧ ((forLoopCleaner exForLoopC5).endStmt.tokens.map Token.value).head? = some "END".toList :=
  c5_theorem exForLoopC5 (by decide) (by decide)

/-! ## C1: settings/variables first column width -/

/-- C1 (amended): in the space dialect with inter-cell spacing `n`, for
a one-line settings/variables statement the first cell is left-justified
to width 14, so when its text is at most 14 characters long the next
cell begins at character offset `14 + n` (not 14); when it is longer, no
truncation occurs and the next cell begins right after it plus the
`n`-character separator. -/
theorem c1_theorem (n : Nat) (ty : TokenType) (t1 : Token) (rest : List Token)
    (hEol : ∀ t ∈ t1 :: rest, t.type ≠ .EOL)
    (hne : rest ≠ [])
    (hns : rstrip (List.intercalate (List.replicate n ' ') (rest.map Token.value)) ≠ []) :
    writeStmt (spaceConfig n) 0 (alignerVisitStatement ⟨ty, t1 :: rest⟩)
      = [ljust settingAndVariableNameWidth t1.value ++ List.replicate n ' '
          ++ rstrip (List.intercalate (List.replicate n ' ') (rest.map Token.value))]
    ∧ (t1.value.length ≤ 14 → (ljust settingAndVariableNameWidth t1.value).length = 14)
    ∧ (14 ≤ t1.value.length → ljust settingAndVariableNameWidth t1.value = t1.value) := by
  refine ⟨?_, ?_, ?_⟩
  · have hl1 : linesOf (t1 :: rest) = [t1 :: rest] :=
      linesOf_no_eol _ hEol (by simp)
    have halign : alignerVisitStatement ⟨ty, t1 :: rest⟩ =
        ⟨ty, { t1 with value := ljust settingAndVariableNameWidth t1.value } :: rest⟩ := by
      simp [alignerVisitStatement, Statement.lines, hl1, ljustFirstToken]
    rw [halign]
    have hEol2 : ∀ t ∈ ({ t1 with value := ljust settingAndVariableNameWidth t1.value } :: rest),
        t.type ≠ .EOL := by
      intro t ht
      rcases List.mem_cons.mp ht with h | h
      · subst h
        exact hEol t1 (List.mem_cons_self t1 rest)
      · exact hEol t (List.mem_cons_of_mem t1 h)
    have hl2 : linesOf ({ t1 with value := ljust settingAndVariableNameWidth t1.value } :: rest)
        = [{ t1 with value := ljust settingAndVariableNameWidth t1.value } :: rest] :=
      linesOf_no_eol _ hEol2 (by simp)
    have hmne : rest.map Token.value ≠ [] := by
      intro hx
      exact hne (List.map_eq_nil_iff.mp hx)
    have hsep : (spaceConfig n).separator = List.replicate n ' ' := rfl
    have hpipes : (spaceConfig n).pipes = false := rfl
    simp only [writeStmt, Statement.lines, hl2, List.map_cons, List.map_nil, hsep, hpipes,
      Bool.false_eq_true, if_false, strRepeat, List.replicate_zero, List.flatten_nil,
      List.nil_append]
    rw [intercalate_cons _ _ _ hmne, rstrip_append _ _ hns]
  · intro h
    simp only [ljust, settingAndVariableNameWidth, List.length_append, List.length_replicate]
    omega
  · intro h
    simp [ljust, settingAndVariableNameWidth, Nat.sub_eq_zero_of_le h]

/-- C1 counterexample: `"Library"` (7 ≤ 14 characters) followed by cell
`"X"` with the default spacing 4: the emitted line has the next cell at
offset 18, not at offset 14. -/
theorem c1_counterexample :
    writeStmt (spaceConfig 4) 0 (alignerVisitStatement
        ⟨.SETTING_HEADER, [⟨.KEYWORD, "Library".toList⟩, ⟨.NAME, "X".toList⟩]⟩)
      = ["Library           X".toList]
    ∧ "Library           X".toList.drop 18 = "X".toList
    ∧ "Library           X".toList.drop 14 ≠ "X".toList := by
  refine ⟨by rfl, by rfl, by decide⟩

/-- C1 witness: the amended statement at the concrete input of the
counterexample. -/
theorem c1_witness :
    (writeStmt (spaceConfig 4) 0 (alignerVisitStatement
        ⟨.SETTING_HEADER, [⟨.KEYWORD, "Library".toList⟩, ⟨.NAME, "X".toList⟩]⟩)
      = [ljust settingAndVariableNameWidth "Library".toList ++ List.replicate 4 ' '
          ++ rstrip (List.intercalate (List.replicate 4 ' ')
              ([(⟨.NAME, "X".toList⟩ : Token)].map Token.value))])
    ∧ ("Library".toList.length ≤ 14 →
        (ljust settingAndVariableNameWidth "Library".toList).length = 14)
    ∧ (14 ≤ "Library".toList.length →
        ljust settingAndVariableNameWidth "Library".toList = "Library".toList) :=
  c1_theorem 4 .SETTING_HEADER ⟨.KEYWORD, "Library".toList⟩ [⟨.NAME, "X".toList⟩]
    (by decide) (by decide) (by decide)

/-! ## C9: separator removal -/

/-- C9 (amended): after `SeparatorRemover` no statement retains
end-of-line, separator or legacy-indent tokens; the whitespace of a
separator (minus its four trailing characters) is merged into the
preceding header-title token *only* for section headers of testcase
kind — all other statements, keyword-section headers included, just have
their layout tokens dropped. -/
theorem c9_theorem :
    (∀ st : Statement, ∀ t ∈ (separatorRemover st).tokens,
       t.type ≠ .EOL ∧ t.type ≠ .SEPARATOR ∧ t.type ≠ .OLD_FOR_INDENT)
    ∧ (∀ v s w : List Char,
        separatorRemover ⟨.TESTCASE_HEADER,
          [⟨.TESTCASE_HEADER, v⟩, ⟨.SEPARATOR, s⟩, ⟨.TESTCASE_HEADER, w⟩]⟩
        = ⟨.TESTCASE_HEADER,
          [⟨.TESTCASE_HEADER, v ++ s.take (s.length - 4)⟩, ⟨.TESTCASE_HEADER, w⟩]⟩)
    ∧ (∀ st : Statement, st.type ≠ .TESTCASE_HEADER →
        (separatorRemover st).tokens = st.tokens.filter (fun t => !(tokenIsLayout t))) := by
  refine ⟨?_, ?_, ?_⟩
  · intro st t ht
    have h2 := (List.mem_filter.mp ht).2
    simp only [Bool.not_eq_true', decide_eq_false_iff_not, tokenIsLayout] at h2
    push_neg at h2
    exact h2
  · intro v s w
    simp [separatorRemover, addWhitespaceToHeaderValues, addWsGo, tokenIsLayout,
      List.filter]
  · intro st h
    simp [separatorRemover, h]

/-- C9 counterexample: a *keyword* section header with a separator
between its two title tokens: the separator's whitespace is not merged
into the first title token (its value stays `"*** Keywords ***"`),
contrary to the claim, which predicts the merged value. -/
theorem c9_counterexample :
    (separatorRemover ⟨.KEYWORD_HEADER,
        [⟨.KEYWORD_HEADER, "*** Keywords ***".toList⟩,
         ⟨.SEPARATOR, "          ".toList⟩,
         ⟨.KEYWORD_HEADER, "Arg".toList⟩]⟩).tokens
      = [⟨.KEYWORD_HEADER, "*** Keywords ***".toList⟩, ⟨.KEYWORD_HEADER, "Arg".toList⟩]
    ∧ "*** Keywords ***".toList
        ≠ "*** Keywords ***".toList ++ "          ".toList.take 6 := by
  refine ⟨by rfl, by decide⟩

/-- C9 witness: the no-layout-token part at a concrete statement. -/
theorem c9_witness :
    (⟨.KEYWORD, "x".toList⟩ : Token).type ≠ .EOL
    ∧ (⟨.KEYWORD, "x".toList⟩ : Token).type ≠ .SEPARATOR
    ∧ (⟨.KEYWORD, "x".toList⟩ : Token).type ≠ .OLD_FOR_INDENT :=
  c9_theorem.1 ⟨.ARGUMENT, [⟨.KEYWORD, "x".toList⟩, ⟨.EOL, "\n".toList⟩]⟩
    ⟨.KEYWORD, "x".toList⟩ (by decide)

/-! ## C10: frame effects of the alignment passes -/

/-- The relation "`t'` is `t` with some spaces prepended to its value". -/
def padLeftOnly (t t' : Token) : Prop :=
  t'.type = t.type ∧ ∃ k, t'.value = List.replicate k ' ' ++ t.value

/-- The relation "`t'` is `t` with some spaces appended to its value". -/
def padRightOnly (t t' : Token) : Prop :=
  t'.type = t.type ∧ ∃ k, t'.value = t.value ++ List.replicate k ' '

theorem padLeftOnly_refl (t : Token) : padLeftOnly t t := ⟨rfl, 0, rfl⟩

theorem padRightOnly_refl (t : Token) : padRightOnly t t := ⟨rfl, 0, by simp⟩

theorem columnAlignGo_forall₂ (line : List Token) :
    ∀ (widths : List Nat) (lp ep : Nat),
      List.Forall₂ padLeftOnly line (columnAlignGo lp ep line widths) := by
  induction line with
  | nil =>
    intro widths lp ep
    cases widths <;> exact List.Forall₂.nil
  | cons t ts ih =>
    intro widths lp ep
    cases widths with
    | nil => exact (List.forall₂_same).mpr (fun x _ => padLeftOnly_refl x)
    | cons w ws => exact List.Forall₂.cons ⟨rfl, _, rfl⟩ (ih ws _ _)

theorem forall₂_flatten_map {R : Token → Token → Prop} (f : List Token → List Token)
    (hf : ∀ l, List.Forall₂ R l (f l)) (ls : List (List Token)) :
    List.Forall₂ R ls.flatten (ls.map f).flatten := by
  induction ls with
  | nil => exact List.Forall₂.nil
  | cons l ls ih => simpa using List.rel_append (hf l) ih

/-- C10 (amended): the alignment passes preserve the number, order,
type and core text of every statement's tokens, modifying values only
by space padding — `ColumnAligner` by *prepending* spaces, while the
first-column `Aligner` pads by *appending* spaces (`ljust`); and
`ColumnAligner` leaves every statement of testcase-header or name type
completely unchanged. -/
theorem c10_theorem :
    (∀ (widths : List Nat) (st : Statement),
       st.type = .TESTCASE_HEADER ∨ st.type = .NAME →
       columnAlignerVisitStatement widths st = st)
    ∧ (∀ (widths : List Nat) (st : Statement),
        List.Forall₂ padLeftOnly st.tokens (columnAlignerVisitStatement widths st).tokens)
    ∧ (∀ st : Statement,
        List.Forall₂ padRightOnly st.tokens (alignerVisitStatement st).tokens) := by
  refine ⟨?_, ?_, ?_⟩
  · intro widths st h
    simp [columnAlignerVisitStatement, h]
  · intro widths st
    by_cases h : st.type = .TESTCASE_HEADER ∨ st.type = .NAME
    · simp only [columnAlignerVisitStatement, if_pos h]
      exact (List.forall₂_same).mpr fun x _ => padLeftOnly_refl x
    · simp only [columnAlignerVisitStatement, if_neg h, Statement.lines]
      have hlift := forall₂_flatten_map (fun line => columnAlignGo 0 0 line widths)
        (fun l => columnAlignGo_forall₂ l widths 0 0) (linesOf st.tokens)
      rw [linesOf_flatten] at hlift
      exact hlift
  · intro st
    have hl : ∀ line, List.Forall₂ padRightOnly line (ljustFirstToken line) := by
      intro line
      cases line with
      | nil => exact List.Forall₂.nil
      | cons t ts =>
        exact List.Forall₂.cons ⟨rfl, settingAndVariableNameWidth - t.value.length, rfl⟩
          ((List.forall₂_same).mpr fun x _ => padRightOnly_refl x)
    have hlift := forall₂_flatten_map ljustFirstToken hl (linesOf st.tokens)
    rw [linesOf_flatten] at hlift
    exact hlift

/-- C10 counterexample: the first-column `Aligner` turns `"Library"`
into `"Library       "` — spaces are *appended*, and the result is not
of the claimed form "spaces prepended to the original value". -/
theorem c10_counterexample :
    (alignerVisitStatement ⟨.ARGUMENT, [⟨.ARGUMENT, "Library".toList⟩]⟩).tokens
      = [⟨.ARGUMENT, "Library       ".toList⟩]
    ∧ ¬ ∃ k, "Library       ".toList = List.replicate k ' ' ++ "Library".toList := by
  constructor
  · rfl
  · rintro ⟨k, hk⟩
    have hlen := congrArg List.length hk
    simp at hlen
    have hk7 : k = 7 := by omega
    subst hk7
    exact absurd hk (by decide)

/-- C10 witness: `ColumnAligner` leaves a name statement unchanged. -/
theorem c10_witness :
    columnAlignerVisitStatement [3] ⟨.NAME, [⟨.NAME, "T".toList⟩]⟩
      = ⟨.NAME, [⟨.NAME, "T".toList⟩]⟩ :=
  c10_theorem.1 [3] ⟨.NAME, [⟨.NAME, "T".toList⟩]⟩ (Or.inr rfl)

/-! ## C6 and C7: refinement of the stateful emitter by the pure
description -/

/-- Whether a section item is a test/keyword. -/
def isTokItem : SectionItem → Bool
  | .tok _ => true
  | .stmt _ => false

theorem visitForLoopW_eq (cfg : WConfig) (st : WState) (f : ForLoop) :
    visitForLoopW cfg st f = (bodyItemOut cfg st.indent (.forLoop f), st) := by
  cases st
  simp [visitForLoopW, bodyItemOut]

theorem visitBodyItemW_eq (cfg : WConfig) (st : WState) (it : BodyItem) :
    visitBodyItemW cfg st it = (bodyItemOut cfg st.indent it, st) := by
  cases it with
  | stmt s => rfl
  | forLoop f => exact visitForLoopW_eq cfg st f

theorem visitBodyListW_eq (cfg : WConfig) (items : List BodyItem) :
    ∀ st : WState, visitBodyListW cfg st items
      = ((items.map (bodyItemOut cfg st.indent)).flatten, st) := by
  induction items with
  | nil => intro st; simp [visitBodyListW]
  | cons it rest ih =>
    intro st
    simp [visitBodyListW, visitBodyItemW_eq, ih st]

theorem visitTestOrKeywordW_eq (cfg : WConfig) (st : WState) (t : TestOrKeyword) :
    visitTestOrKeywordW cfg st t
      = ((if st.testOrKwSeen then [[]] else []) ++ tokOut cfg st.indent t,
         { st with testOrKwSeen := true }) := by
  cases st
  simp [visitTestOrKeywordW, visitBodyListW_eq, tokOut]

theorem visitItemListW_eq (cfg : WConfig) (items : List SectionItem) :
    ∀ st : WState, visitItemListW cfg st items
      = (itemsOut cfg st.indent st.testOrKwSeen items,
         { st with testOrKwSeen := st.testOrKwSeen || items.any isTokItem }) := by
  induction items with
  | nil => intro st; cases st; simp [visitItemListW, itemsOut]
  | cons it rest ih =>
    intro st
    cases it with
    | stmt s =>
      simp [visitItemListW, visitSectionItemW, itemsOut, ih st, isTokItem]
    | tok t =>
      simp only [visitItemListW, visitSectionItemW, visitTestOrKeywordW_eq,
        ih { st with testOrKwSeen := true }, itemsOut, isTokItem, List.any_cons]
      cases st
      simp [List.append_assoc]

theorem visitSectionW_eq (cfg : WConfig) (st : WState) (sec : Section)
    (hi : st.indent = 0) (hk : st.testOrKwSeen = false) :
    visitSectionW cfg st sec
      = ((if st.sectionSeen then [[]] else []) ++ sectionOut cfg sec,
         ⟨0, true, false, false⟩) := by
  obtain ⟨ind, ss, ks, hs⟩ := st
  simp only at hi hk
  subst hi hk
  by_cases h : sec.type = .TESTCASE_HEADER <;>
    simp [visitSectionW, h, visitItemListW_eq, sectionOut, List.append_assoc]

theorem visitSectionListW_steady (cfg : WConfig) (secs : List Section) :
    visitSectionListW cfg ⟨0, true, false, false⟩ secs
      = ((secs.map (fun sec => [] :: sectionOut cfg sec)).flatten,
         ⟨0, true, false, false⟩) := by
  induction secs with
  | nil => rfl
  | cons sec rest ih =>
    simp [visitSectionListW, visitSectionW_eq cfg ⟨0, true, false, false⟩ sec rfl rfl, ih]

/-- The stateful `Writer` is refined by the pure description: its
output is exactly the section outputs joined by single blank lines. -/
theorem writer_refines (cfg : WConfig) (doc : Document) :
    writeDocumentW cfg doc = documentOut cfg doc := by
  obtain ⟨secs⟩ := doc
  cases secs with
  | nil => rfl
  | cons sec rest =>
    simp only [writeDocumentW, documentOut, visitSectionListW,
      visitSectionW_eq cfg initWState sec rfl rfl, visitSectionListW_steady,
      List.map_cons, intercalate_eq_head_append]
    simp [initWState, Function.comp_def]

/-! Pipe-shape lemmas for C6. -/

/-- A line wrapped in the pipe markers. -/
def pipeWrapped (l : List Char) : Prop :=
  ∃ m, l = "| ".toList ++ m ++ " |".toList

theorem writeStmt_pipe_mem (n ind : Nat) (s : Statement) (l : List Char)
    (h : l ∈ writeStmt (pipeConfig n) ind s) : pipeWrapped l := by
  simp only [writeStmt] at h
  obtain ⟨line, _, rfl⟩ := List.mem_map.mp h
  refine ⟨strRepeat ind (pipeConfig n).indentMarker
    ++ List.intercalate (pipeConfig n).separator (line.map Token.value), ?_⟩
  simp [pipeConfig, List.append_assoc]

theorem bodyItemOut_pipe_mem (n ind : Nat) (it : BodyItem) (l : List Char)
    (h : l ∈ bodyItemOut (pipeConfig n) ind it) : pipeWrapped l := by
  cases it with
  | stmt s => exact writeStmt_pipe_mem n ind s l h
  | forLoop f =>
    simp only [bodyItemOut, List.mem_append, List.mem_flatten] at h
    rcases h with (h | ⟨sub, hsub, hl⟩) | h
    · exact writeStmt_pipe_mem n ind f.header l h
    · obtain ⟨s', _, rfl⟩ := List.mem_map.mp hsub
      exact writeStmt_pipe_mem n (ind + 1) s' l hl
    · exact writeStmt_pipe_mem n ind f.endStmt l h

theorem tokOut_pipe_mem (n ind : Nat) (t : TestOrKeyword) (l : List Char)
    (h : l ∈ tokOut (pipeConfig n) ind t) : pipeWrapped l := by
  simp only [tokOut, List.mem_append, List.mem_flatten] at h
  rcases h with h | ⟨sub, hsub, hl⟩
  · exact writeStmt_pipe_mem n ind t.name l h
  · obtain ⟨it, _, rfl⟩ := List.mem_map.mp hsub
    exact bodyItemOut_pipe_mem n (ind + 1) it l hl

theorem itemsOut_pipe_mem (n ind : Nat) (items : List SectionItem) :
    ∀ (seen : Bool) (l : List Char), l ∈ itemsOut (pipeConfig n) ind seen items →
      l = [] ∨ pipeWrapped l := by
  induction items with
  | nil => intro seen l h; simp [itemsOut] at h
  | cons it rest ih =>
    intro seen l h
    cases it with
    | stmt s =>
      rcases List.mem_append.mp h with h | h
      · exact Or.inr (writeStmt_pipe_mem n ind s l h)
      · exact ih seen l h
    | tok t =>
      simp only [itemsOut, List.mem_append] at h
      rcases h with (h | h) | h
      · rcases seen with _ | _
        · simp at h
        · simp at h
          exact Or.inl h
      · exact Or.inr (tokOut_pipe_mem n ind t l h)
      · exact ih true l h

theorem sectionOut_pipe_mem (n : Nat) (sec : Section) (l : List Char)
    (h : l ∈ sectionOut (pipeConfig n) sec) : l = [] ∨ pipeWrapped l := by
  rcases List.mem_append.mp h with h | h
  · exact Or.inr (writeStmt_pipe_mem n 0 sec.header l h)
  · exact itemsOut_pipe_mem n 0 sec.items false l h

/-- C6: in the pipe dialect every emitted line is either the empty
separator line or wrapped in `"| "` and `" |"`; the writer emits the
section outputs joined by single completely empty lines; and the second
pipeline's `_write_row` likewise wraps every non-empty row. -/
theorem c6_theorem (n : Nat) (doc : Document) :
    (∀ l ∈ writeDocumentW (pipeConfig n) doc,
       l = [] ∨ ∃ m, l = "| ".toList ++ m ++ " |".toList)
    ∧ writeDocumentW (pipeConfig n) doc
        = List.intercalate [[]] (doc.sections.map (sectionOut (pipeConfig n)))
    ∧ (∀ row : List Token,
        pipeWriteRow row = [] ∨ ∃ m, pipeWriteRow row = "| ".toList ++ m ++ " |".toList) := by
  refine ⟨?_, writer_refines _ doc, ?_⟩
  · intro l hl
    rw [writer_refines] at hl
    obtain ⟨secs⟩ := doc
    rcases secs with _ | ⟨sec, rest⟩
    · simp [documentOut, List.intercalate] at hl
    · rw [documentOut] at hl
      simp only [List.map_cons] at hl
      rw [intercalate_eq_head_append] at hl
      rcases List.mem_append.mp hl with h | h
      · exact sectionOut_pipe_mem n sec l h
      · rw [List.mem_flatten] at h
        obtain ⟨sub, hsub, hmem⟩ := h
        obtain ⟨y, hy, rfl⟩ := List.mem_map.mp hsub
        obtain ⟨sec', _, rfl⟩ := List.mem_map.mp hy
        rcases List.mem_cons.mp hmem with rfl | hmem
        · exact Or.inl rfl
        · exact sectionOut_pipe_mem n sec' l hmem
  · intro row
    by_cases h : (List.intercalate " | ".toList (row.map Token.value)).isEmpty
    · left
      simp only [pipeWriteRow, if_pos h]
      exact List.isEmpty_iff.mp h
    · right
      refine ⟨List.intercalate " | ".toList (row.map Token.value), ?_⟩
      simp only [pipeWriteRow, if_neg h]

/-- A one-section document for the C6 witness. -/
def exDocC6 : Document :=
  ⟨[⟨.SETTING_HEADER, ⟨.SETTING_HEADER, [⟨.SETTING_HEADER, "*** Settings ***".toList⟩]⟩, []⟩]⟩

/-- C6 witness: the emitted header line of a concrete pipe-dialect
document is pipe-wrapped. -/
theorem c6_witness :
    "| *** Settings *** |".toList = []
    ∨ ∃ m, "| *** Settings *** |".toList = "| ".toList ++ m ++ " |".toList :=
  (c6_theorem 4 exDocC6).1 "| *** Settings *** |".toList (by decide)

/-- C7: the emitter writes the sections joined by exactly one blank
line (none before the first or after the last); within a section one
blank line precedes every test/keyword except the first; statements of
a test/keyword body are written one indent level deeper and loop bodies
one more (see `tokOut`, `bodyItemOut`, `itemsOut`, `documentOut`); and
one indent level of the space dialect is the configurable number of
spaces, 4 by default. -/
theorem c7_theorem (n : Nat) (doc : Document) :
    writeDocumentW (spaceConfig n) doc = documentOut (spaceConfig n) doc
    ∧ (spaceConfig n).indentMarker = List.replicate n ' '
    ∧ (spaceConfig defaultTxtSeparatingSpaces).indentMarker = List.replicate 4 ' ' :=
  ⟨writer_refines _ doc, rfl, rfl⟩

/-! ## C8: end-of-line handling in the row splitter -/

theorem namePending_iff (sec : Section) (s : SplitState) :
    namePending sec s.prevT ↔
      (∃ p, s.prevT = some p ∧ p.type = .NAME
        ∧ (sec.type = .TESTCASE_HEADER ∨ sec.type = .KEYWORD_HEADER)
        ∧ 2 < sec.header.tokens.length ∧ p.value.length ≤ 18) := by
  cases hp : s.prevT with
  | none => simp [namePending]
  | some p =>
    simp only [namePending, wantNamesOnFirstContentRow, shouldAlignColumns,
      isIndentedTable, testOrKeywordNameWidth]
    constructor
    · rintro ⟨h1, ⟨h2, h3⟩, h4⟩
      exact ⟨p, rfl, h1, h2, h3, h4⟩
    · rintro ⟨q, hq, h1, h2, h3, h4⟩
      cases hq
      exact ⟨h1, ⟨h2, h3⟩, h4⟩

/-- C8: an end-of-line token closes the current row (yielding it when
non-empty) and starts a new one — unless the previously processed
content token is a name token whose text fits in the 18-character name
column and the section is an indented (testcase/keyword) one whose
header has more than two tokens, in which case the split state is left
untouched and the name stays pending on the current row. -/
theorem c8_theorem (sec : Section) (s : SplitState) (t : Token) (ht : t.type = .EOL) :
    ((∃ p, s.prevT = some p ∧ p.type = .NAME
        ∧ (sec.type = .TESTCASE_HEADER ∨ sec.type = .KEYWORD_HEADER)
        ∧ 2 < sec.header.tokens.length ∧ p.value.length ≤ 18) →
      splitStep sec s t = s)
    ∧ ((¬ ∃ p, s.prevT = some p ∧ p.type = .NAME
        ∧ (sec.type = .TESTCASE_HEADER ∨ sec.type = .KEYWORD_HEADER)
        ∧ 2 < sec.header.tokens.length ∧ p.value.length ≤ 18) →
      splitStep sec s t = { s with rows := emitRow s, tokensOnRow := [] }) := by
  have hstep : splitStep sec s t =
      if namePending sec s.prevT then s
      else { s with rows := emitRow s, tokensOnRow := [] } := by
    simp [splitStep, ht, ite_not]
  constructor
  · intro hex
    rw [hstep, if_pos ((namePending_iff sec s).mpr hex)]
  · intro hnex
    rw [hstep, if_neg (fun hn => hnex ((namePending_iff sec s).mp hn))]

/-- A testcase section with a three-token header (column alignment
enabled), for the C8 witness. -/
def exSecC8 : Section :=
  ⟨.TESTCASE_HEADER,
   ⟨.TESTCASE_HEADER,
    [⟨.TESTCASE_HEADER, "*** Test Cases ***".toList⟩,
     ⟨.TESTCASE_HEADER, "A".toList⟩,
     ⟨.TESTCASE_HEADER, "B".toList⟩]⟩,
   []⟩

/-- A split state that just consumed the short test name `"T"`. -/
def exSplitStateC8 : SplitState :=
  ⟨[], [⟨.NAME, "T".toList⟩], false, false, some ⟨.NAME, "T".toList⟩⟩

/-- C8 witness: with alignment enabled and a pending short name, the
end-of-line token leaves the split state untouched. -/
theorem c8_witness :
    splitStep exSecC8 exSplitStateC8 ⟨.EOL, "\n".toList⟩ = exSplitStateC8 :=
  (c8_theorem exSecC8 exSplitStateC8 ⟨.EOL, "\n".toList⟩ rfl).1
    ⟨⟨.NAME, "T".toList⟩, rfl, rfl, Or.inl rfl, by decide, by decide⟩

end RFW
